import Mathlib

/-!
Verification of the minifier in src/hooks/minimize.py.

The whole program is a pure text-to-text pipeline built from Python
re.sub calls.  Each substitution is embedded as an executable function on
List Char that mirrors the leftmost, non-overlapping scanning semantics of
the corresponding regular expression.  Functions whose recursion jumps over
a matched span use an explicit fuel argument initialised with the length of
the input; every step consumes at least one input character, so that fuel
is always sufficient.
-/

namespace Minimize

/-- Whitespace test mirroring the characters matched by a Python regex
backslash-s on the ASCII range (space, tab, newline, carriage return,
vertical tab, form feed). -/
def isWs (c : Char) : Bool :=
  c == ' ' || c == '\t' || c == '\n' || c == '\r' || c == '\x0b' || c == '\x0c'

/-- Word character, as in a Python regex backslash-w on the ASCII range. -/
def isWordChar (c : Char) : Bool :=
  c.isAlpha || c.isDigit || c == '_'

/-- The character class [a-zA-Z0-9_$] used by the keyword-spacing rules of
minify_js (lines 47 and 48 of minimize.py). -/
def isIdClass (c : Char) : Bool :=
  c.isAlpha || c.isDigit || c == '_' || c == '$'

/-- Structural characters of minify_css line 21: spaces around any of
them are removed. -/
def isCssPunct (c : Char) : Bool :=
  c == '{' || c == '}' || c == ':' || c == ';' || c == ',' ||
  c == '>' || c == '+' || c == '~'

/-- Parentheses, minify_css line 24. -/
def isParen (c : Char) : Bool :=
  c == '(' || c == ')'

/-- Operator and punctuation characters of minify_js line 44. -/
def isJsPunct (c : Char) : Bool :=
  c == '{' || c == '}' || c == '(' || c == ')' || c == '[' || c == ']' ||
  c == ';' || c == ',' || c == ':' || c == '<' || c == '>' || c == '!' ||
  c == '=' || c == '+' || c == '-' || c == '*' || c == '/' || c == '%' ||
  c == '&' || c == '|' || c == '^'

/-- Drop the remainder of the current line: everything up to, but not
including, the next newline. -/
def dropLine (s : List Char) : List Char :=
  s.dropWhile (fun c => c != '\n')

/-- One scanning pass of re.sub(r'//.*?$', '', code, flags=re.MULTILINE)
(minify_js line 35): from each '//' delete to the end of the line. -/
def removeLineCommentsGo : Nat → List Char → List Char
  | 0, s => s
  | _ + 1, [] => []
  | f + 1, '/' :: '/' :: rest => removeLineCommentsGo f (dropLine rest)
  | f + 1, c :: rest => c :: removeLineCommentsGo f rest

def removeLineComments (s : List Char) : List Char :=
  removeLineCommentsGo s.length s

/-- Remainder of the text after the first occurrence of pat, if any. -/
def findSub (pat : List Char) : List Char → Option (List Char)
  | [] => if pat.isEmpty then some [] else none
  | s@(_ :: rest) =>
      if pat.isPrefixOf s then some (s.drop pat.length) else findSub pat rest

/-- One scanning pass of re.sub(op + '.*?' + cl, '', code, flags=re.DOTALL):
non-greedy delimited-comment removal, used with '/*' '*/' (minify_css
line 15, minify_js line 38) and with '<!--' '-->' (minify_html line 93).
When an opener has no later closer the scan advances one character, exactly
as the regex engine does. -/
def removeDelimGo (op cl : List Char) : Nat → List Char → List Char
  | 0, s => s
  | _ + 1, [] => []
  | f + 1, s@(c :: rest) =>
      if op.isPrefixOf s then
        match findSub cl (s.drop op.length) with
        | some rest' => removeDelimGo op cl f rest'
        | none => c :: removeDelimGo op cl f rest
      else c :: removeDelimGo op cl f rest

def removeBlockComments (s : List Char) : List Char :=
  removeDelimGo ['/', '*'] ['*', '/'] s.length s

def removeHtmlComments (s : List Char) : List Char :=
  removeDelimGo ['<', '!', '-', '-'] ['-', '-', '>'] s.length s

/-- re.sub(r'\s+', ' ', code): every maximal whitespace run becomes one
space.  Inside a run every character but the last is dropped and the last
becomes a space. -/
def collapseWs : List Char → List Char
  | [] => []
  | [c] => if isWs c then [' '] else [c]
  | c1 :: c2 :: rest =>
      if isWs c1 && isWs c2 then collapseWs (c2 :: rest)
      else (if isWs c1 then ' ' else c1) :: collapseWs (c2 :: rest)

/-- re.sub(r'\s*([punct])\s*', r'\1', code) as a left-to-right state
machine.  afterP records that a punctuation character was just emitted (its
trailing whitespace run is consumed); pend holds a whitespace run whose
fate is still unknown: it is dropped if a punctuation character follows and
flushed otherwise. -/
def sapGo (p : Char → Bool) : Bool → List Char → List Char → List Char
  | true, _, [] => []
  | false, pend, [] => pend
  | true, _, c :: rest =>
      if isWs c then sapGo p true [] rest
      else if p c then c :: sapGo p true [] rest
      else c :: sapGo p false [] rest
  | false, pend, c :: rest =>
      if isWs c then sapGo p false (pend ++ [c]) rest
      else if p c then c :: sapGo p true [] rest
      else pend ++ (c :: sapGo p false [] rest)

def sap (p : Char → Bool) (s : List Char) : List Char :=
  sapGo p false [] s

/-- re.sub(r';\}', '}', css_code) (minify_css line 27). -/
def removeSemiBrace : List Char → List Char
  | ';' :: '}' :: rest => '}' :: removeSemiBrace rest
  | c :: rest => c :: removeSemiBrace rest
  | [] => []

/-- Remove trailing whitespace (keeping everything before it). -/
def dropTrailingWs : List Char → List Char
  | [] => []
  | c :: rest =>
      match dropTrailingWs rest with
      | [] => if isWs c then [] else [c]
      | r => c :: r

/-- Python str.strip(): remove leading and trailing whitespace. -/
def stripWs (s : List Char) : List Char :=
  dropTrailingWs (s.dropWhile isWs)

/-- minify_css, lines 12-29 of minimize.py: comment removal, whitespace
collapse, space removal around structural characters and parentheses,
removal of a semicolon before a closing brace, and a final strip. -/
def minify_css (css_code : List Char) : List Char :=
  stripWs (removeSemiBrace (sap isParen (sap isCssPunct
    (collapseWs (removeBlockComments css_code)))))

/-- The keyword alternation of minify_js line 47, in source order. -/
def jsKeywords : List (List Char) :=
  ["return".data, "var".data, "let".data, "const".data, "if".data,
   "else".data, "for".data, "while".data, "function".data, "class".data,
   "new".data, "typeof".data, "delete".data, "instanceof".data]

/-- The keyword alternation of minify_js line 48: the same list followed
by "in" and "of". -/
def jsKeywordsBefore : List (List Char) :=
  jsKeywords ++ ["in".data, "of".data]

/-- Alternation step for line 47: find the first keyword that is a prefix
of s and is followed by a character of [a-zA-Z0-9_$] that also satisfies
the word boundary after the keyword (hence a non-word character).  Returns
the keyword, that character, and the remaining text. -/
def tryKwAfter : List (List Char) → List Char → Option (List Char × Char × List Char)
  | [], _ => none
  | k :: ks, s =>
      if k.isPrefixOf s then
        match s.drop k.length with
        | d :: rest =>
            if isIdClass d && !isWordChar d then some (k, d, rest)
            else tryKwAfter ks s
        | [] => tryKwAfter ks s
      else tryKwAfter ks s

/-- Word boundary between the end of a keyword and the rest of the text. -/
def boundaryAfter : List Char → Bool
  | [] => true
  | d :: _ => !isWordChar d

/-- Alternation step for line 48: first keyword that is a prefix of s and
is followed by a word boundary. -/
def tryKwBefore : List (List Char) → List Char → Option (List Char × List Char)
  | [], _ => none
  | k :: ks, s =>
      if k.isPrefixOf s then
        if boundaryAfter (s.drop k.length) then some (k, s.drop k.length)
        else tryKwBefore ks s
      else tryKwBefore ks s

/-- One pass of minify_js line 47,
re.sub(r'\b(return|...)\b([a-zA-Z0-9_$])', r'\1 \2', code).
prevWord tracks the character before the scan position, for the leading
word boundary. -/
def kwSpaceAfterGo : Nat → Bool → List Char → List Char
  | 0, _, s => s
  | _ + 1, _, [] => []
  | f + 1, prevWord, s@(c :: rest) =>
      if prevWord then c :: kwSpaceAfterGo f (isWordChar c) rest
      else
        match tryKwAfter jsKeywords s with
        | some (k, d, rest') => k ++ ' ' :: d :: kwSpaceAfterGo f (isWordChar d) rest'
        | none => c :: kwSpaceAfterGo f (isWordChar c) rest

def kwSpaceAfter (s : List Char) : List Char :=
  kwSpaceAfterGo s.length false s

/-- One pass of minify_js line 48,
re.sub(r'([a-zA-Z0-9_$])\b(return|...|in|of)\b', r'\1 \2', code).
The word boundary between the captured character and the keyword forces
the captured character to be a non-word member of the class. -/
def kwSpaceBeforeGo : Nat → List Char → List Char
  | 0, s => s
  | _ + 1, [] => []
  | f + 1, c :: rest =>
      if isIdClass c && !isWordChar c then
        match tryKwBefore jsKeywordsBefore rest with
        | some (k, rest') => c :: ' ' :: (k ++ kwSpaceBeforeGo f rest')
        | none => c :: kwSpaceBeforeGo f rest
      else c :: kwSpaceBeforeGo f rest

def kwSpaceBefore (s : List Char) : List Char :=
  kwSpaceBeforeGo s.length s

/-- re.sub of the literal pattern ')' w1 w2 c3 to ') ' w1 w2 c3, used for
the four narrow in/of restorations of minify_js lines 51-54. -/
def restoreSp (w1 w2 c3 : Char) : List Char → List Char
  | ')' :: a :: b :: c :: rest =>
      if a == w1 && b == w2 && c == c3 then
        ')' :: ' ' :: a :: b :: c :: restoreSp w1 w2 c3 rest
      else ')' :: restoreSp w1 w2 c3 (a :: b :: c :: rest)
  | c :: rest => c :: restoreSp w1 w2 c3 rest
  | [] => []

/-- minify_js, lines 32-56 of minimize.py. -/
def minify_js (js_code : List Char) : List Char :=
  stripWs (restoreSp 'o' 'f' '[' (restoreSp 'o' 'f' '(' (restoreSp 'i' 'n' '['
    (restoreSp 'i' 'n' '(' (kwSpaceBefore (kwSpaceAfter (sap isJsPunct
      (collapseWs (removeBlockComments (removeLineComments js_code))))))))))

/-- Decimal digits of a natural number, as produced by a Python f-string. -/
def natDigitsGo : Nat → Nat → List Char
  | 0, _ => []
  | f + 1, n =>
      if n < 10 then [Nat.digitChar n]
      else natDigitsGo f (n / 10) ++ [Nat.digitChar (n % 10)]

def natDigits (n : Nat) : List Char :=
  natDigitsGo (n + 1) n

/-- Placeholder written for style block number i (minify_html line 70). -/
def styleMarker (i : Nat) : List Char :=
  "___STYLE_BLOCK_".data ++ natDigits i ++ "___".data

/-- Placeholder written for script block number i (minify_html line 88). -/
def scriptMarker (i : Nat) : List Char :=
  "___SCRIPT_BLOCK_".data ++ natDigits i ++ "___".data

/-- Case-insensitive prefix test: pat (lowercase) against the text, as the
re.IGNORECASE flag matches the literal parts of the tag patterns. -/
def ciStarts : List Char → List Char → Bool
  | [], _ => true
  | _ :: _, [] => false
  | p :: ps, c :: cs => (c.toLower == p) && ciStarts ps cs

/-- Split at the first '>' character: the regex fragment ([^>]*)> yields
the text before the '>' and the text after it, or nothing when no '>'
remains (in which case the tag pattern cannot match). -/
def splitAtGt : List Char → Option (List Char × List Char)
  | [] => none
  | '>' :: rest => some ([], rest)
  | c :: rest =>
      match splitAtGt rest with
      | some (a, r) => some (c :: a, r)
      | none => none

/-- First case-insensitive occurrence of pat: returns the text before the
occurrence and the text after it.  Mirrors the non-greedy (.*?) followed by
the closing-tag literal under re.IGNORECASE. -/
def findCiSplit (pat : List Char) : List Char → Option (List Char × List Char)
  | [] => if pat.isEmpty then some ([], []) else none
  | s@(c :: rest) =>
      if ciStarts pat s then some ([], s.drop pat.length)
      else
        match findCiSplit pat rest with
        | some (a, r) => some (c :: a, r)
        | none => none

/-- Body of replace_style (minify_html lines 66-70): the reconstructed
block drops the attribute text of the original opening tag. -/
def style_block (content : List Char) : List Char :=
  "<style>".data ++ minify_css content ++ "</style>".data

/-- Body of replace_script (minify_html lines 75-87): whitespace-only
content is kept verbatim, anything else goes through minify_js; the
original attribute text of the opening tag is preserved. -/
def script_block (opening_tag js_content : List Char) : List Char :=
  "<script".data ++ opening_tag ++ '>' ::
    ((if stripWs js_content = [] then js_content else minify_js js_content) ++
      "</script>".data)

/-- One scanning pass of
re.sub(r'(<style)[^>]*>(.*?)</style>', replace_style, html, DOTALL+IGNORECASE)
(minify_html line 72): each matched block is minified, appended to the
registry, and replaced in the text by its placeholder, whose index is the
registry length at that moment. -/
def extractStylesGo : Nat → List Char → List (List Char) → List Char × List (List Char)
  | 0, s, acc => (s, acc)
  | _ + 1, [], acc => ([], acc)
  | f + 1, s@(c :: rest), acc =>
      if ciStarts "<style".data s then
        match splitAtGt (s.drop 6) with
        | some (_, inner) =>
            match findCiSplit "</style>".data inner with
            | some (content, post) =>
                let r := extractStylesGo f post (acc ++ [style_block content])
                (styleMarker acc.length ++ r.1, r.2)
            | none =>
                let r := extractStylesGo f rest acc
                (c :: r.1, r.2)
        | none =>
            let r := extractStylesGo f rest acc
            (c :: r.1, r.2)
      else
        let r := extractStylesGo f rest acc
        (c :: r.1, r.2)

def extractStyles (s : List Char) : List Char × List (List Char) :=
  extractStylesGo s.length s []

/-- One scanning pass of
re.sub(r'<script([^>]*)>(.*?)</script>', replace_script, html, DOTALL+IGNORECASE)
(minify_html line 90). -/
def extractScriptsGo : Nat → List Char → List (List Char) → List Char × List (List Char)
  | 0, s, acc => (s, acc)
  | _ + 1, [], acc => ([], acc)
  | f + 1, s@(c :: rest), acc =>
      if ciStarts "<script".data s then
        match splitAtGt (s.drop 7) with
        | some (attrs, inner) =>
            match findCiSplit "</script>".data inner with
            | some (content, post) =>
                let r := extractScriptsGo f post (acc ++ [script_block attrs content])
                (scriptMarker acc.length ++ r.1, r.2)
            | none =>
                let r := extractScriptsGo f rest acc
                (c :: r.1, r.2)
        | none =>
            let r := extractScriptsGo f rest acc
            (c :: r.1, r.2)
      else
        let r := extractScriptsGo f rest acc
        (c :: r.1, r.2)

def extractScripts (s : List Char) : List Char × List (List Char) :=
  extractScriptsGo s.length s []

/-- re.sub(r'>\s+<', '><', html) (minify_html line 99) as a state
machine: gt records an unemitted '>' and pend the whitespace run read
since it; the run is deleted when '<' follows it. -/
def ritGo : Bool → List Char → List Char → List Char
  | false, _, [] => []
  | false, _, c :: rest =>
      if c == '>' then ritGo true [] rest else c :: ritGo false [] rest
  | true, pend, [] => '>' :: pend
  | true, pend, c :: rest =>
      if isWs c then ritGo true (pend ++ [c]) rest
      else if c == '<' && !pend.isEmpty then '>' :: '<' :: ritGo false [] rest
      else if c == '>' then ('>' :: pend) ++ ritGo true [] rest
      else ('>' :: pend) ++ (c :: ritGo false [] rest)

def removeInterTag (s : List Char) : List Char :=
  ritGo false [] s

/-- Python str.replace: replace every occurrence of pat (nonempty here),
left to right, without rescanning the replacement text. -/
def replaceAllGo (pat repl : List Char) : Nat → List Char → List Char
  | 0, s => s
  | _ + 1, [] => []
  | f + 1, s@(c :: rest) =>
      if pat.isPrefixOf s && !pat.isEmpty then
        repl ++ replaceAllGo pat repl f (s.drop pat.length)
      else c :: replaceAllGo pat repl f rest

def replaceAll (pat repl s : List Char) : List Char :=
  replaceAllGo pat repl s.length s

/-- The restoration loops of minify_html lines 104-110: for each index in
registry order, replace the placeholder by the stored block. -/
def restoreGo (mk : Nat → List Char) : Nat → List (List Char) → List Char → List Char
  | _, [], t => t
  | i, b :: bs, t => restoreGo mk (i + 1) bs (replaceAll (mk i) b t)

/-- The markup-level passes of minify_html (lines 92-102): HTML comment
removal, whitespace collapse, inter-tag whitespace removal, strip.  They
run on the working text in which every embedded block is a placeholder. -/
def markupMinify (t : List Char) : List Char :=
  stripWs (removeInterTag (collapseWs (removeHtmlComments t)))

/-- The working text of minify_html just before placeholder restoration. -/
def preRestoreText (s : List Char) : List Char :=
  markupMinify (extractScripts (extractStyles s).1).1

/-- minify_html, lines 59-112 of minimize.py: extract and minify style
blocks, then script blocks, run the markup passes on the placeholder text,
then restore style placeholders and script placeholders in index order. -/
def minify_html (html_code : List Char) : List Char :=
  restoreGo scriptMarker 0 (extractScripts (extractStyles html_code).1).2
    (restoreGo styleMarker 0 (extractStyles html_code).2 (preRestoreText html_code))

/-- The reduction statistic of minify_file line 143,
((original - minified) / original) * 100, with Python division that raises
ZeroDivisionError when the original size is zero. -/
def reduction_percent (original minified : Nat) : Except Unit Rat :=
  if original = 0 then Except.error ()
  else Except.ok ((((original : Rat) - (minified : Rat)) / (original : Rat)) * 100)

/-- minify_file, lines 115-150, for an existing input file with the given
content: the minified text is written to the output file first (line 138),
then the statistics are computed (line 143).  The first component is the
text written to the output file; the second is Except.ok true for the
normal return and Except.error for an uncaught ZeroDivisionError. -/
def minify_file (content : List Char) : List Char × Except Unit Bool :=
  let minified := minify_html content
  match reduction_percent content.length minified.length with
  | Except.error _ => (minified, Except.error ())
  | Except.ok _ => (minified, Except.ok true)

/-- Two adjacent whitespace characters occur somewhere in the text. -/
def hasAdjWs : List Char → Bool
  | [] => false
  | [_] => false
  | c1 :: c2 :: rest => (isWs c1 && isWs c2) || hasAdjWs (c2 :: rest)

/-- Two consecutive space characters occur somewhere in the text. -/
def hasDoubleSpace : List Char → Bool
  | [] => false
  | [_] => false
  | c1 :: c2 :: rest => (c1 == ' ' && c2 == ' ') || hasDoubleSpace (c2 :: rest)

/-- A whitespace character standing directly between a '>' and a '<'. -/
def hasGtWsLt : List Char → Bool
  | [] => false
  | [_] => false
  | [_, _] => false
  | a :: b :: c :: rest => (a == '>' && isWs b && c == '<') || hasGtWsLt (b :: c :: rest)

/-- Number of positions at which pat occurs in the text (pat nonempty in
all uses; occurrences may overlap). -/
def countSub (pat : List Char) : List Char → Nat
  | [] => 0
  | c :: rest => (if pat.isPrefixOf (c :: rest) then 1 else 0) + countSub pat rest

/-- pat occurs somewhere in the text. -/
def hasSub (pat : List Char) : List Char → Bool
  | [] => pat.isEmpty
  | c :: rest => pat.isPrefixOf (c :: rest) || hasSub pat rest

/-- pat occurs case-insensitively somewhere in the text. -/
def hasCiSub (pat : List Char) : List Char → Bool
  | [] => pat.isEmpty
  | c :: rest => ciStarts pat (c :: rest) || hasCiSub pat rest

/-- An occurrence of op followed, disjointly, by an occurrence of cl. -/
def hasOpenClose (op cl : List Char) : List Char → Bool
  | [] => false
  | c :: rest =>
      (op.isPrefixOf (c :: rest) && hasSub cl ((c :: rest).drop op.length)) ||
        hasOpenClose op cl rest

/-- The end-to-end example input of the specification. -/
def exampleInput : List Char :=
  "<!-- c -->\n<div>\n  <p>Hi</p>\n</div>\n<style>\n  a  \x7b  color : red ;  \x7d\n</style>\n<script>\n  var x = 1; // note\n  if (x) \x7b return x; \x7d\n</script>".data

/-- The output the specification claims for the example. -/
def exampleSpecOutput : List Char :=
  "<div><p>Hi</p></div><style>a\x7bcolor:red\x7d</style><script>var x=1;if(x)\x7breturn x;\x7d</script>".data

/-- The output the code actually produces for the example: the
placeholders shield the collapsed newlines around the style and script
blocks from the inter-tag rule, so one space remains on each side. -/
def exampleCodeOutput : List Char :=
  "<div><p>Hi</p></div> <style>a\x7bcolor:red\x7d</style> <script>var x=1;if(x)\x7breturn x;\x7d</script>".data

/-! Length lemmas: every stage of minify_css is length-nonincreasing. -/

theorem collapseWs_length (s : List Char) : (collapseWs s).length ≤ s.length := by
  induction s using collapseWs.induct <;> simp_all [collapseWs]
  all_goals try omega
  all_goals split <;> simp_all <;> try omega

theorem dropWhile_length (p : Char → Bool) (l : List Char) :
    (List.dropWhile p l).length ≤ l.length := by
  induction l with
  | nil => simp
  | cons c t ih => rw [List.dropWhile_cons]; split <;> simp <;> omega

theorem findSub_length (pat : List Char) (s r : List Char)
    (h : findSub pat s = some r) : r.length ≤ s.length := by
  induction s with
  | nil => simp [findSub] at h; simp [h.2.symm]
  | cons c t ih =>
      rw [findSub] at h
      split at h
      · cases h; simp [List.length_drop]
      · exact le_trans (ih h) (by simp)

theorem removeDelimGo_length (op cl : List Char) (f : Nat) (s : List Char) :
    (removeDelimGo op cl f s).length ≤ s.length := by
  induction f generalizing s with
  | zero => simp [removeDelimGo]
  | succ f ih =>
      cases s with
      | nil => simp [removeDelimGo]
      | cons c rest =>
          rw [removeDelimGo]
          split
          · cases hf : findSub cl ((c :: rest).drop op.length) with
            | none => simp only []; exact Nat.succ_le_succ (ih rest)
            | some rest' =>
                have h1 := findSub_length _ _ _ hf
                have h2 : ((c :: rest).drop op.length).length ≤ (c :: rest).length := by
                  simp [List.length_drop]
                exact le_trans (ih rest') (le_trans h1 h2)
          · exact Nat.succ_le_succ (ih rest)

theorem sapGo_length (p : Char → Bool) (s : List Char) :
    ∀ ap pend, (sapGo p ap pend s).length ≤ pend.length + s.length := by
  induction s with
  | nil => intro ap pend; cases ap <;> simp [sapGo]
  | cons c rest ih =>
      intro ap pend
      cases ap <;> rw [sapGo] <;> split <;> try split
      all_goals
        first
        | (have h := ih false (pend ++ [c]); simp at h ⊢; omega)
        | (have h := ih true []; simp at h ⊢; omega)
        | (have h := ih false []; simp at h ⊢; omega)

theorem removeSemiBrace_length (s : List Char) :
    (removeSemiBrace s).length ≤ s.length := by
  induction s using removeSemiBrace.induct <;> simp_all [removeSemiBrace] <;> omega

theorem dropTrailingWs_length (s : List Char) :
    (dropTrailingWs s).length ≤ s.length := by
  induction s with
  | nil => simp [dropTrailingWs]
  | cons c rest ih =>
      rw [dropTrailingWs]
      split
      · split <;> simp
      · simp only [List.length_cons]
        have h2 := ih
        omega

theorem stripWs_length (s : List Char) : (stripWs s).length ≤ s.length :=
  le_trans (dropTrailingWs_length _) (dropWhile_length _ _)

theorem minify_css_length (s : List Char) : (minify_css s).length ≤ s.length := by
  unfold minify_css
  refine le_trans (stripWs_length _) (le_trans (removeSemiBrace_length _) ?_)
  refine le_trans (sapGo_length _ _ false []) ?_
  simp only [List.length_nil, Nat.zero_add]
  refine le_trans (sapGo_length _ _ false []) ?_
  simp only [List.length_nil, Nat.zero_add]
  exact le_trans (collapseWs_length _) (removeDelimGo_length _ _ _ _)

/-! Lemmas about stripWs, countSub and Python str.replace. -/

theorem stripWs_eq_nil (s : List Char) (h : ∀ c ∈ s, isWs c = true) :
    stripWs s = [] := by
  have hd : s.dropWhile isWs = [] := by
    rw [List.dropWhile_eq_nil_iff]; exact h
  rw [stripWs, hd]; rfl

theorem countSub_suffix_le (pat x b : List Char) :
    countSub pat b ≤ countSub pat (x ++ b) := by
  induction x with
  | nil => simp
  | cons c t ih => simp only [List.cons_append, countSub, List.append_eq]; omega

theorem countSub_pos (pat a b : List Char) (hp : pat ≠ []) :
    1 ≤ countSub pat (a ++ pat ++ b) := by
  induction a with
  | nil =>
      simp only [List.nil_append]
      cases pat with
      | nil => exact absurd rfl hp
      | cons p pr =>
          have hpre : (p :: pr).isPrefixOf ((p :: pr) ++ b) = true :=
            List.isPrefixOf_iff_prefix.mpr ⟨b, rfl⟩
          rw [List.cons_append] at hpre
          simp only [countSub, List.append_eq]
          rw [if_pos hpre]
          omega
  | cons c t ih => simp only [List.cons_append, countSub, List.append_eq]; omega

theorem replaceAllGo_no_occurrence (pat repl t : List Char)
    (h : countSub pat t = 0) : ∀ f, replaceAllGo pat repl f t = t := by
  induction t with
  | nil => intro f; cases f <;> rfl
  | cons c rest ih =>
      intro f
      simp only [countSub] at h
      have h1 : ¬(pat.isPrefixOf (c :: rest) = true) := by
        intro hpre; rw [if_pos hpre] at h; omega
      have h2 : countSub pat rest = 0 := by
        split at h <;> omega
      cases f with
      | zero => rfl
      | succ f =>
          rw [replaceAllGo]
          rw [if_neg]
          · rw [ih h2]
          · simp [h1]

theorem replaceAllGo_unique (pat repl b : List Char) (hp : pat ≠ []) :
    ∀ a f, a.length + 1 ≤ f → countSub pat (a ++ pat ++ b) = 1 →
      replaceAllGo pat repl f (a ++ pat ++ b) = a ++ repl ++ b := by
  intro a
  induction a with
  | nil =>
      intro f hf h1
      simp only [List.nil_append] at h1 ⊢
      cases f with
      | zero => omega
      | succ f =>
          cases pat with
          | nil => exact absurd rfl hp
          | cons p pr =>
              have hpre : (p :: pr).isPrefixOf (p :: (pr ++ b)) = true := by
                rw [← List.cons_append]
                exact List.isPrefixOf_iff_prefix.mpr ⟨b, rfl⟩
              have hc0 : countSub (p :: pr) b = 0 := by
                have hle := countSub_suffix_le (p :: pr) pr b
                rw [List.cons_append] at h1
                simp only [countSub, List.append_eq] at h1
                rw [if_pos hpre] at h1
                omega
              rw [List.cons_append, replaceAllGo]
              split
              · rw [show (p :: (pr ++ b)).drop (p :: pr).length = b by
                      rw [← List.cons_append]; exact List.drop_left _ _]
                rw [replaceAllGo_no_occurrence _ repl _ hc0]
              · rename_i hcond
                exact absurd (by simp [hpre]) hcond
  | cons c t ih =>
      intro f hf h1
      have hrest1 : 1 ≤ countSub pat (t ++ pat ++ b) := countSub_pos pat t b hp
      simp only [List.cons_append, countSub, List.append_eq] at h1
      have hpre : ¬(pat.isPrefixOf (c :: (t ++ pat ++ b)) = true) := by
        intro hx
        rw [if_pos hx] at h1
        omega
      have h2 : countSub pat (t ++ pat ++ b) = 1 := by
        rw [if_neg hpre] at h1
        omega
      cases f with
      | zero => simp at hf
      | succ f =>
          have hgoal : (c :: t) ++ pat ++ b = c :: (t ++ pat ++ b) := by simp
          rw [hgoal, replaceAllGo]
          split
          · rename_i hcond
            rw [Bool.and_eq_true] at hcond
            exact absurd hcond.1 hpre
          · have hih := ih f (by simp at hf; omega) h2
            simp only [List.append_eq] at *
            rw [hih]
            simp

theorem restore_single (mk : Nat → List Char) (a b blk : List Char)
    (hp : mk 0 ≠ []) (h1 : countSub (mk 0) (a ++ mk 0 ++ b) = 1) :
    restoreGo mk 0 [blk] (a ++ mk 0 ++ b) = a ++ blk ++ b := by
  show replaceAll (mk 0) blk (a ++ mk 0 ++ b) = a ++ blk ++ b
  rw [replaceAll]
  apply replaceAllGo_unique _ _ _ hp _ _ _ h1
  have hpos : 0 < (mk 0).length := List.length_pos.mpr hp
  simp [List.length_append]
  omega

/-! Concrete evaluations settling the claims that fail on the code. -/

set_option maxRecDepth 10000 in
/-- Claim C1, counterexample: on the specification's end-to-end example
input, minify_html does not return the text the specification states. -/
theorem cex_C1 : minify_html exampleInput ≠ exampleSpecOutput := by decide

set_option maxRecDepth 10000 in
/-- Claim C1, amended: on the end-to-end example input, minify_html
returns the same text except that one space remains between the div block
and the style block and between the style block and the script block,
because the placeholders hide the '>' and '<' of the embedded blocks from
the inter-tag whitespace rule. -/
theorem thm_C1 : minify_html exampleInput = exampleCodeOutput := by decide

set_option maxRecDepth 10000 in
/-- Claim C2, counterexample: a script block whose content is only
whitespace is restored verbatim, so the output of minify_html can contain
two consecutive spaces, and the space left next to a restored block gives
whitespace directly between '>' and '<'. -/
theorem cex_C2 :
    minify_html "<script>  </script> <b></b>".data =
      "<script>  </script> <b></b>".data ∧
    hasDoubleSpace "<script>  </script> <b></b>".data = true ∧
    hasGtWsLt "<script>  </script> <b></b>".data = true := by decide

set_option maxRecDepth 2000 in
/-- Claim C3, counterexample: deleting a comment can join a '/' with a
following '*', re-forming a comment that only the second pass removes, so
minify_css is not idempotent and a second pass can shrink the text. -/
theorem cex_C3 :
    minify_css (minify_css "//*x*/*ab*/".data) ≠ minify_css "//*x*/*ab*/".data ∧
    (minify_css (minify_css "//*x*/*ab*/".data)).length <
      (minify_css "//*x*/*ab*/".data).length := by decide

/-- Claim C3, amended: a second minify_css pass can differ from the first
(the counterexample shrinks), but it never produces a longer text, since
every stage of minify_css only deletes characters or replaces a whitespace
run by a single space. -/
theorem thm_C3 (x : List Char) :
    (minify_css (minify_css x)).length ≤ (minify_css x).length :=
  minify_css_length (minify_css x)

set_option maxRecDepth 2000 in
/-- Claim C4: the word boundary written between the keyword group and the
character class in minify_js lines 47-48 can only be satisfied by the one
non-word member of the class, the dollar sign, so no space is re-inserted
when a keyword and an identifier collide after comment removal: the code
produces the fused token returnx where its own comment (line 46) and the
specification require return x.  The dollar case shows the regex as
written firing. -/
theorem thm_C4 :
    minify_js "return/*c*/x".data = "returnx".data ∧
    minify_js "x/*c*/return".data = "xreturn".data ∧
    minify_js "return$x".data = "return $x".data := by decide

set_option maxRecDepth 10000 in
/-- Claim C5, counterexample: an input whose text already contains the
placeholder marker of style block 0 receives the restored block twice, so
a style block is duplicated (input has one style opening tag, output has
two). -/
theorem cex_C5 :
    minify_html "x___STYLE_BLOCK_0___<style>a</style>".data =
      "x<style>a</style><style>a</style>".data ∧
    countSub "<style>".data "x___STYLE_BLOCK_0___<style>a</style>".data = 1 ∧
    countSub "<style>".data
      (minify_html "x___STYLE_BLOCK_0___<style>a</style>".data) = 2 := by decide

/-- Claim C5, amended: restoration is a pure textual replacement, so a
block is restored exactly once precisely when its placeholder marker has
exactly one occurrence in the pre-restoration text: restoring a one-block
registry maps a ++ marker ++ b to a ++ block ++ b (for the style and the
script loop alike).  When the input text itself contains a marker string
the occurrence is not unique and the block is duplicated. -/
theorem thm_C5 :
    (∀ a b blk, countSub (styleMarker 0) (a ++ styleMarker 0 ++ b) = 1 →
      restoreGo styleMarker 0 [blk] (a ++ styleMarker 0 ++ b) = a ++ blk ++ b) ∧
    (∀ a b blk, countSub (scriptMarker 0) (a ++ scriptMarker 0 ++ b) = 1 →
      restoreGo scriptMarker 0 [blk] (a ++ scriptMarker 0 ++ b) = a ++ blk ++ b) :=
  ⟨fun a b blk h => restore_single styleMarker a b blk (by decide) h,
   fun a b blk h => restore_single scriptMarker a b blk (by decide) h⟩

/-- Witness for thm_C5 at a concrete surrounding text and block. -/
theorem wit_C5 :
    countSub (styleMarker 0) ("u".data ++ styleMarker 0 ++ "v".data) = 1 ∧
    restoreGo styleMarker 0 ["<style>p</style>".data]
        ("u".data ++ styleMarker 0 ++ "v".data) =
      "u".data ++ "<style>p</style>".data ++ "v".data :=
  ⟨by decide, thm_C5.1 "u".data "v".data "<style>p</style>".data (by decide)⟩

/-- Claim C6: a script block whose inner content is empty or whitespace
only is reproduced with that content unchanged, character for character:
the branch of replace_script that builds the block returns the original
content and never calls minify_js on it. -/
theorem thm_C6 (opening_tag js_content : List Char)
    (h : ∀ c ∈ js_content, isWs c = true) :
    script_block opening_tag js_content =
      "<script".data ++ opening_tag ++ '>' :: (js_content ++ "</script>".data) := by
  rw [script_block, if_pos (stripWs_eq_nil js_content h)]

/-- Witness for thm_C6 on a two-space script body without attributes. -/
theorem wit_C6 :
    (∀ c ∈ "  ".data, isWs c = true) ∧
    script_block [] "  ".data =
      "<script".data ++ [] ++ '>' :: ("  ".data ++ "</script>".data) :=
  ⟨by decide, thm_C6 [] "  ".data (by decide)⟩

set_option maxRecDepth 2000 in
/-- Claim C8, counterexample: removing the whitespace around '/' and '*'
(both in the punctuation class of minify_js line 44) can join them into a
comment delimiter, so the output of minify_js can contain a full
slash-star ... star-slash substring. -/
theorem cex_C8 :
    minify_js "a / *b* / c".data = "a/*b*/c".data ∧
    hasOpenClose ['/', '*'] ['*', '/'] (minify_js "a / *b* / c".data) = true := by
  decide

/-- Claim C9: on an existing input file whose content is empty, the
minified text (also empty) is written first, and the reduction statistic
then divides by the original size zero, so minify_file ends in an uncaught
ZeroDivisionError instead of returning True. -/
theorem thm_C9 : minify_file [] = ([], Except.error ()) := rfl

end Minimize
namespace Minimize
theorem mem_dropWhile (p : Char → Bool) (l : List Char) (c : Char)
    (h : c ∈ l.dropWhile p) : c ∈ l :=
  (List.dropWhile_sublist p).subset h

theorem mem_dropLine (s : List Char) (c : Char) (h : c ∈ dropLine s) : c ∈ s :=
  mem_dropWhile _ _ _ h

theorem mem_removeLineCommentsGo (f : Nat) (s : List Char) (c : Char) :
    c ∈ removeLineCommentsGo f s → c ∈ s := by
  induction f, s using removeLineCommentsGo.induct with
  | case1 s => exact fun h => h
  | case2 f => simp [removeLineCommentsGo]
  | case3 f rest ih =>
      intro h
      rw [removeLineCommentsGo] at h
      have h2 := mem_dropLine _ _ (ih h)
      simp [h2]
  | case4 f c' rest h1 ih =>
      intro h
      rw [removeLineCommentsGo.eq_def] at h
      split at h <;> simp_all
      rcases h with h | h
      · simp [h]
      · simp [ih h]
end Minimize
namespace Minimize
theorem mem_findSub (pat : List Char) (s r : List Char) (c : Char)
    (hf : findSub pat s = some r) (h : c ∈ r) : c ∈ s := by
  induction s with
  | nil =>
      rw [findSub] at hf
      split at hf <;> simp_all
  | cons c' t ih =>
      rw [findSub] at hf
      split at hf
      · cases hf
        exact List.drop_subset _ _ h
      · exact List.mem_cons_of_mem _ (ih hf)

theorem mem_removeDelimGo (op cl : List Char) (f : Nat) (s : List Char) (c : Char) :
    c ∈ removeDelimGo op cl f s → c ∈ s := by
  induction f generalizing s with
  | zero => simp [removeDelimGo]
  | succ f ih =>
      cases s with
      | nil => simp [removeDelimGo]
      | cons c' rest =>
          intro h
          rw [removeDelimGo] at h
          split at h
          · split at h
            · rename_i rest' hf
              exact List.drop_subset _ _ (mem_findSub _ _ _ _ hf (ih rest' h))
            · rcases List.mem_cons.mp h with h2 | h2
              · simp [h2]
              · exact List.mem_cons_of_mem _ (ih rest h2)
          · rcases List.mem_cons.mp h with h2 | h2
            · simp [h2]
            · exact List.mem_cons_of_mem _ (ih rest h2)

theorem mem_collapseWs (s : List Char) (c : Char) :
    c ∈ collapseWs s → c ∈ s ∨ c = ' ' := by
  induction s using collapseWs.induct with
  | case1 => simp [collapseWs]
  | case2 c' hws =>
      intro h
      rw [collapseWs, if_pos hws] at h
      simp at h
      simp [h]
  | case3 c' hws =>
      intro h
      rw [collapseWs, if_neg hws] at h
      simp at h
      simp [h]
  | case4 c1 c2 rest hc ih =>
      intro hm
      rw [collapseWs, if_pos hc] at hm
      rcases ih hm with h2 | h2
      · exact Or.inl (List.mem_cons_of_mem _ h2)
      · exact Or.inr h2
  | case5 c1 c2 rest hc ih =>
      intro hm
      rw [collapseWs, if_neg hc] at hm
      rcases List.mem_cons.mp hm with h2 | h2
      · split at h2
        · exact Or.inr h2
        · exact Or.inl (by simp [h2])
      · rcases ih h2 with h3 | h3
        · exact Or.inl (List.mem_cons_of_mem _ h3)
        · exact Or.inr h3

theorem mem_sapGo (p : Char → Bool) (s : List Char) :
    ∀ ap pend c, c ∈ sapGo p ap pend s → c ∈ s ∨ c ∈ pend := by
  induction s with
  | nil =>
      intro ap pend c h
      cases ap <;> simp [sapGo] at h <;> simp [h]
  | cons c' rest ih =>
      intro ap pend c h
      cases ap
      · rw [sapGo] at h
        split at h
        · rcases ih false (pend ++ [c']) c h with h2 | h2
          · simp [h2]
          · rcases List.mem_append.mp h2 with h3 | h3
            · simp [h3]
            · simp at h3; simp [h3]
        · split at h
          · rcases List.mem_cons.mp h with h2 | h2
            · simp [h2]
            · rcases ih true [] c h2 with h3 | h3
              · simp [h3]
              · simp at h3
          · rcases List.mem_append.mp h with h2 | h2
            · simp [h2]
            · rcases List.mem_cons.mp h2 with h3 | h3
              · simp [h3]
              · rcases ih false [] c h3 with h4 | h4
                · simp [h4]
                · simp at h4
      · rw [sapGo] at h
        split at h
        · rcases ih true [] c h with h2 | h2
          · simp [h2]
          · simp at h2
        · split at h
          · rcases List.mem_cons.mp h with h2 | h2
            · simp [h2]
            · rcases ih true [] c h2 with h3 | h3
              · simp [h3]
              · simp at h3
          · rcases List.mem_cons.mp h with h2 | h2
            · simp [h2]
            · rcases ih false [] c h2 with h3 | h3
              · simp [h3]
              · simp at h3
end Minimize
namespace Minimize
theorem mem_removeSemiBrace (s : List Char) (c : Char) :
    c ∈ removeSemiBrace s → c ∈ s := by
  induction s using removeSemiBrace.induct with
  | case1 rest ih =>
      intro h
      rw [removeSemiBrace] at h
      rcases List.mem_cons.mp h with h2 | h2
      · simp [h2]
      · simp [ih h2]
  | case2 c' rest h1 ih =>
      intro h
      rw [removeSemiBrace.eq_def] at h
      split at h <;> simp_all
      rcases h with h | h
      · simp [h]
      · simp [ih h]
  | case3 => simp [removeSemiBrace]

theorem mem_dropTrailingWs (s : List Char) (c : Char) :
    c ∈ dropTrailingWs s → c ∈ s := by
  induction s with
  | nil => simp [dropTrailingWs]
  | cons c' rest ih =>
      intro h
      rw [dropTrailingWs] at h
      split at h
      · split at h <;> simp_all
      · rcases List.mem_cons.mp h with h2 | h2
        · simp [h2]
        · simp [ih (by simp_all)]

theorem mem_stripWs (s : List Char) (c : Char) : c ∈ stripWs s → c ∈ s :=
  fun h => mem_dropWhile _ _ _ (mem_dropTrailingWs _ _ h)

theorem tryKwAfter_eq (ks : List (List Char)) (s : List Char)
    (k : List Char) (d : Char) (rest : List Char)
    (h : tryKwAfter ks s = some (k, d, rest)) : s = k ++ d :: rest := by
  induction ks with
  | nil => simp [tryKwAfter] at h
  | cons k2 ks ih =>
      rw [tryKwAfter] at h
      split at h
      · rename_i hpre
        split at h
        · rename_i d2 rest2 hdrop
          split at h
          · simp only [Option.some_inj, Prod.mk.injEq] at h
            obtain ⟨rfl, rfl, rfl⟩ := h
            obtain ⟨t, ht⟩ := List.isPrefixOf_iff_prefix.mp hpre
            rw [← ht] at hdrop ⊢
            rw [List.drop_left] at hdrop
            rw [hdrop]
          · exact ih h
        · exact ih h
      · exact ih h

theorem tryKwBefore_eq (ks : List (List Char)) (s : List Char)
    (k : List Char) (rest : List Char)
    (h : tryKwBefore ks s = some (k, rest)) : s = k ++ rest := by
  induction ks with
  | nil => simp [tryKwBefore] at h
  | cons k2 ks ih =>
      rw [tryKwBefore] at h
      split at h
      · rename_i hpre
        split at h
        · simp only [Option.some_inj, Prod.mk.injEq] at h
          obtain ⟨rfl, rfl⟩ := h
          obtain ⟨t, ht⟩ := List.isPrefixOf_iff_prefix.mp hpre
          rw [← ht, List.drop_left]
        · exact ih h
      · exact ih h

theorem mem_kwSpaceAfterGo (f : Nat) (s : List Char) :
    ∀ pw c, c ∈ kwSpaceAfterGo f pw s → c ∈ s ∨ c = ' ' := by
  induction f generalizing s with
  | zero => intro pw c h; exact Or.inl h
  | succ f ih =>
      intro pw c h
      cases s with
      | nil => simp [kwSpaceAfterGo] at h
      | cons c' rest =>
          rw [kwSpaceAfterGo] at h
          split at h
          · rcases List.mem_cons.mp h with h2 | h2
            · simp [h2]
            · rcases ih rest _ c h2 with h3 | h3
              · simp [h3]
              · simp [h3]
          · cases hx : tryKwAfter jsKeywords (c' :: rest) with
            | none =>
                simp only [hx] at h
                rcases List.mem_cons.mp h with h2 | h2
                · simp [h2]
                · rcases ih rest _ c h2 with h3 | h3
                  · simp [h3]
                  · simp [h3]
            | some x =>
                obtain ⟨k, d, rest'⟩ := x
                simp only [hx] at h
                have heq := tryKwAfter_eq _ _ _ _ _ hx
                rcases List.mem_append.mp h with h2 | h2
                · exact Or.inl (heq ▸ List.mem_append_left _ h2)
                · rcases List.mem_cons.mp h2 with h3 | h3
                  · exact Or.inr h3
                  · rcases List.mem_cons.mp h3 with h4 | h4
                    · exact Or.inl (heq ▸ (by simp [h4]))
                    · rcases ih rest' _ c h4 with h5 | h5
                      · exact Or.inl (heq ▸ (by simp [h5]))
                      · simp [h5]

theorem mem_kwSpaceBeforeGo (f : Nat) (s : List Char) :
    ∀ c, c ∈ kwSpaceBeforeGo f s → c ∈ s ∨ c = ' ' := by
  induction f generalizing s with
  | zero => intro c h; exact Or.inl h
  | succ f ih =>
      intro c h
      cases s with
      | nil => simp [kwSpaceBeforeGo] at h
      | cons c' rest =>
          rw [kwSpaceBeforeGo] at h
          split at h
          · cases hx : tryKwBefore jsKeywordsBefore rest with
            | none =>
                simp only [hx] at h
                rcases List.mem_cons.mp h with h2 | h2
                · simp [h2]
                · rcases ih rest c h2 with h3 | h3
                  · simp [h3]
                  · simp [h3]
            | some x =>
                obtain ⟨k, rest'⟩ := x
                simp only [hx] at h
                have heq := tryKwBefore_eq _ _ _ _ hx
                rcases List.mem_cons.mp h with h2 | h2
                · simp [h2]
                · rcases List.mem_cons.mp h2 with h3 | h3
                  · exact Or.inr h3
                  · rcases List.mem_append.mp h3 with h4 | h4
                    · exact Or.inl (List.mem_cons_of_mem _ (heq ▸ List.mem_append_left _ h4))
                    · rcases ih rest' c h4 with h5 | h5
                      · exact Or.inl (List.mem_cons_of_mem _ (heq ▸ List.mem_append_right _ h5))
                      · simp [h5]
          · rcases List.mem_cons.mp h with h2 | h2
            · simp [h2]
            · rcases ih rest c h2 with h3 | h3
              · simp [h3]
              · simp [h3]

theorem mem_restoreSp (w1 w2 c3 : Char) (s : List Char) (c : Char) :
    c ∈ restoreSp w1 w2 c3 s → c ∈ s ∨ c = ' ' := by
  induction s using restoreSp.induct w1 w2 c3 with
  | case1 a b d rest hcond ih =>
      intro h
      rw [restoreSp] at h
      split at h
      · simp only [List.mem_cons] at h ⊢
        rcases h with h | h | h | h | h | h
        · simp [h]
        · simp [h]
        · simp [h]
        · simp [h]
        · simp [h]
        · rcases ih h with h2 | h2
          · simp [h2]
          · simp [h2]
      · rename_i hc
        exact absurd hcond hc
  | case2 a b d rest hcond ih =>
      intro h
      rw [restoreSp] at h
      split at h
      · rename_i hc
        exact absurd hc hcond
      · rcases List.mem_cons.mp h with h2 | h2
        · simp [h2]
        · rcases ih h2 with h3 | h3
          · simp [h3]
          · simp [h3]
  | case3 c' rest h1 ih =>
      intro h
      rw [restoreSp.eq_2 w1 w2 c3 c' rest h1] at h
      rcases List.mem_cons.mp h with h2 | h2
      · simp [h2]
      · rcases ih h2 with h3 | h3 <;> simp [h3]
  | case4 => simp [restoreSp]
end Minimize
namespace Minimize
theorem mem_minify_css (s : List Char) (c : Char) :
    c ∈ minify_css s → c ∈ s ∨ c = ' ' := by
  intro h
  rw [minify_css] at h
  have h1 := mem_stripWs _ _ h
  have h2 := mem_removeSemiBrace _ _ h1
  rcases mem_sapGo _ _ _ _ _ h2 with h3 | h3
  swap; · simp at h3
  rcases mem_sapGo _ _ _ _ _ h3 with h4 | h4
  swap; · simp at h4
  rcases mem_collapseWs _ _ h4 with h5 | h5
  swap; · exact Or.inr h5
  exact Or.imp_left (mem_removeDelimGo _ _ _ _ _) (Or.inl h5)

theorem mem_minify_js (s : List Char) (c : Char) :
    c ∈ minify_js s → c ∈ s ∨ c = ' ' := by
  intro h
  rw [minify_js] at h
  have h1 := mem_stripWs _ _ h
  rcases mem_restoreSp _ _ _ _ _ h1 with h2 | h2
  swap; · exact Or.inr h2
  rcases mem_restoreSp _ _ _ _ _ h2 with h3 | h3
  swap; · exact Or.inr h3
  rcases mem_restoreSp _ _ _ _ _ h3 with h4 | h4
  swap; · exact Or.inr h4
  rcases mem_restoreSp _ _ _ _ _ h4 with h5 | h5
  swap; · exact Or.inr h5
  rcases mem_kwSpaceBeforeGo _ _ _ h5 with h6 | h6
  swap; · exact Or.inr h6
  rcases mem_kwSpaceAfterGo _ _ _ _ h6 with h7 | h7
  swap; · exact Or.inr h7
  rcases mem_sapGo _ _ _ _ _ h7 with h8 | h8
  swap; · simp at h8
  rcases mem_collapseWs _ _ h8 with h9 | h9
  swap; · exact Or.inr h9
  have h10 := mem_removeDelimGo _ _ _ _ _ h9
  exact Or.inl (mem_removeLineCommentsGo _ _ _ h10)

theorem hasOpenClose_op_mem (op cl : List Char) (s : List Char)
    (h : hasOpenClose op cl s = true) : ∀ c ∈ op, c ∈ s := by
  induction s with
  | nil => simp [hasOpenClose] at h
  | cons c' rest ih =>
      intro c hc
      rw [hasOpenClose] at h
      rcases (Bool.or_eq_true _ _).mp h with h2 | h2
      · have hpre := ((Bool.and_eq_true _ _).mp h2).1
        obtain ⟨t, ht⟩ := List.isPrefixOf_iff_prefix.mp hpre
        rw [← ht]
        exact List.mem_append_left _ hc
      · exact List.mem_cons_of_mem _ (ih h2 c hc)
end Minimize
namespace Minimize
theorem digitChar_ne_dash (n : Nat) : Nat.digitChar n ≠ '-' := by
  by_cases h : n < 16
  · interval_cases n <;> decide
  · have h2 : Nat.digitChar n = '*' := by
      rw [Nat.digitChar]
      repeat rw [if_neg (by omega)]
    simp [h2]

theorem dash_not_mem_natDigitsGo (f n : Nat) : '-' ∉ natDigitsGo f n := by
  induction f generalizing n with
  | zero => simp [natDigitsGo]
  | succ f ih =>
      rw [natDigitsGo]
      split
      · simp only [List.mem_singleton]
        intro hh
        exact digitChar_ne_dash _ hh.symm
      · intro h
        rcases List.mem_append.mp h with h2 | h2
        · exact ih _ h2
        · simp at h2
          exact digitChar_ne_dash _ h2.symm

theorem dash_not_mem_styleMarker (i : Nat) : '-' ∉ styleMarker i := by
  intro h
  rw [styleMarker] at h
  rcases List.mem_append.mp h with h2 | h2
  · rcases List.mem_append.mp h2 with h3 | h3
    · simp at h3
    · exact dash_not_mem_natDigitsGo _ _ h3
  · simp at h2

theorem dash_not_mem_scriptMarker (i : Nat) : '-' ∉ scriptMarker i := by
  intro h
  rw [scriptMarker] at h
  rcases List.mem_append.mp h with h2 | h2
  · rcases List.mem_append.mp h2 with h3 | h3
    · simp at h3
    · exact dash_not_mem_natDigitsGo _ _ h3
  · simp at h2

theorem mem_splitAtGt (s a r : List Char) (c : Char)
    (h : splitAtGt s = some (a, r)) : c ∈ r → c ∈ s := by
  induction s generalizing a with
  | nil => simp [splitAtGt] at h
  | cons c' rest ih =>
      intro hc
      by_cases hgt : c' = '>'
      · subst hgt
        rw [splitAtGt] at h
        simp only [Option.some_inj, Prod.mk.injEq] at h
        obtain ⟨h1, h2⟩ := h
        subst h2
        exact List.mem_cons_of_mem _ hc
      · rw [splitAtGt.eq_3 c' rest (fun he => hgt he)] at h
        cases hp : splitAtGt rest with
        | none => rw [hp] at h; simp at h
        | some p =>
            obtain ⟨a2, r2⟩ := p
            rw [hp] at h
            simp only [Option.some_inj, Prod.mk.injEq] at h
            obtain ⟨h1, h2⟩ := h
            subst h2
            exact List.mem_cons_of_mem _ (ih _ hp hc)

theorem mem_findCiSplit (pat s a r : List Char) (c : Char)
    (h : findCiSplit pat s = some (a, r)) : c ∈ r → c ∈ s := by
  induction s generalizing a with
  | nil =>
      rw [findCiSplit] at h
      split at h <;> simp_all
  | cons c' rest ih =>
      intro hc
      rw [findCiSplit.eq_2] at h
      split at h
      · simp only [Option.some_inj, Prod.mk.injEq] at h
        obtain ⟨h1, h2⟩ := h
        subst h2
        exact List.drop_subset _ _ hc
      · cases hp : findCiSplit pat rest with
        | none => rw [hp] at h; simp at h
        | some p =>
            obtain ⟨a2, r2⟩ := p
            rw [hp] at h
            simp only [Option.some_inj, Prod.mk.injEq] at h
            obtain ⟨h1, h2⟩ := h
            subst h2
            exact List.mem_cons_of_mem _ (ih _ hp hc)
end Minimize
namespace Minimize
theorem dash_not_mem_extractStylesGo (f : Nat) :
    ∀ s acc, '-' ∉ s → '-' ∉ (extractStylesGo f s acc).1 := by
  induction f with
  | zero => intro s acc h; exact h
  | succ f ih =>
      intro s acc h
      cases s with
      | nil => simp [extractStylesGo]
      | cons c' rest =>
          have hstep : ∀ acc2, '-' ∉ c' :: (extractStylesGo f rest acc2).1 := by
            intro acc2 hm
            rcases List.mem_cons.mp hm with h2 | h2
            · exact h (List.mem_cons.mpr (Or.inl h2))
            · exact ih rest acc2 (fun hx => h (List.mem_cons_of_mem _ hx)) h2
          rw [extractStylesGo]
          by_cases hci : ciStarts "<style".data (c' :: rest) = true
          · rw [if_pos hci]
            cases hsplit : splitAtGt (List.drop 6 (c' :: rest)) with
            | none => exact hstep acc
            | some p =>
                obtain ⟨attrs, inner⟩ := p
                show '-' ∉ (match findCiSplit "</style>".data inner with
                  | some (content, post) =>
                      (styleMarker acc.length ++
                        (extractStylesGo f post (acc ++ [style_block content])).1,
                       (extractStylesGo f post (acc ++ [style_block content])).2)
                  | none =>
                      (c' :: (extractStylesGo f rest acc).1,
                       (extractStylesGo f rest acc).2)).1
                cases hfind : findCiSplit "</style>".data inner with
                | none => exact hstep acc
                | some q =>
                    obtain ⟨content, post⟩ := q
                    show '-' ∉ styleMarker acc.length ++
                      (extractStylesGo f post (acc ++ [style_block content])).1
                    intro hm
                    rcases List.mem_append.mp hm with h2 | h2
                    · exact dash_not_mem_styleMarker _ h2
                    · refine ih post _ ?_ h2
                      intro hpost
                      exact h (List.mem_cons_of_mem _ (List.drop_subset _ _
                        (mem_splitAtGt _ _ _ _ hsplit
                          (mem_findCiSplit _ _ _ _ _ hfind hpost))))
          · rw [if_neg hci]
            exact hstep acc

theorem dash_not_mem_extractScriptsGo (f : Nat) :
    ∀ s acc, '-' ∉ s → '-' ∉ (extractScriptsGo f s acc).1 := by
  induction f with
  | zero => intro s acc h; exact h
  | succ f ih =>
      intro s acc h
      cases s with
      | nil => simp [extractScriptsGo]
      | cons c' rest =>
          have hstep : ∀ acc2, '-' ∉ c' :: (extractScriptsGo f rest acc2).1 := by
            intro acc2 hm
            rcases List.mem_cons.mp hm with h2 | h2
            · exact h (List.mem_cons.mpr (Or.inl h2))
            · exact ih rest acc2 (fun hx => h (List.mem_cons_of_mem _ hx)) h2
          rw [extractScriptsGo]
          by_cases hci : ciStarts "<script".data (c' :: rest) = true
          · rw [if_pos hci]
            cases hsplit : splitAtGt (List.drop 7 (c' :: rest)) with
            | none => exact hstep acc
            | some p =>
                obtain ⟨attrs, inner⟩ := p
                show '-' ∉ (match findCiSplit "</script>".data inner with
                  | some (content, post) =>
                      (scriptMarker acc.length ++
                        (extractScriptsGo f post (acc ++ [script_block attrs content])).1,
                       (extractScriptsGo f post (acc ++ [script_block attrs content])).2)
                  | none =>
                      (c' :: (extractScriptsGo f rest acc).1,
                       (extractScriptsGo f rest acc).2)).1
                cases hfind : findCiSplit "</script>".data inner with
                | none => exact hstep acc
                | some q =>
                    obtain ⟨content, post⟩ := q
                    show '-' ∉ scriptMarker acc.length ++
                      (extractScriptsGo f post (acc ++ [script_block attrs content])).1
                    intro hm
                    rcases List.mem_append.mp hm with h2 | h2
                    · exact dash_not_mem_scriptMarker _ h2
                    · refine ih post _ ?_ h2
                      intro hpost
                      exact h (List.mem_cons_of_mem _ (List.drop_subset _ _
                        (mem_splitAtGt _ _ _ _ hsplit
                          (mem_findCiSplit _ _ _ _ _ hfind hpost))))
          · rw [if_neg hci]
            exact hstep acc

theorem mem_ritGo (s : List Char) :
    ∀ g pend c, c ∈ ritGo g pend s → c ∈ s ∨ c ∈ pend ∨ c = '>' := by
  induction s with
  | nil =>
      intro g pend c h
      cases g <;> simp [ritGo] at h
      rcases h with h | h
      · simp [h]
      · simp [h]
  | cons c' rest ih =>
      intro g pend c h
      cases g
      · rw [ritGo] at h
        split at h
        · rcases ih true [] c h with h2 | h2 | h2
          · simp [h2]
          · simp at h2
          · simp [h2]
        · rcases List.mem_cons.mp h with h2 | h2
          · simp [h2]
          · rcases ih false [] c h2 with h3 | h3 | h3
            · simp [h3]
            · simp at h3
            · simp [h3]
      · rw [ritGo] at h
        split at h
        · rcases ih true (pend ++ [c']) c h with h2 | h2 | h2
          · simp [h2]
          · rcases List.mem_append.mp h2 with h3 | h3
            · simp [h3]
            · simp at h3; simp [h3]
          · simp [h2]
        · split at h
          · rename_i hlt
            have hc2 : c' = '<' := by
              have hb := ((Bool.and_eq_true _ _).mp hlt).1
              simpa using hb
            rcases List.mem_cons.mp h with h2 | h2
            · simp [h2]
            · rcases List.mem_cons.mp h2 with h3 | h3
              · simp [h3, hc2]
              · rcases ih false [] c h3 with h4 | h4 | h4
                · simp [h4]
                · simp at h4
                · simp [h4]
          · split at h
            · rcases List.mem_append.mp h with h2 | h2
              · rcases List.mem_cons.mp h2 with h3 | h3
                · simp [h3]
                · simp [h3]
              · rcases ih true [] c h2 with h3 | h3 | h3
                · simp [h3]
                · simp at h3
                · simp [h3]
            · rcases List.mem_append.mp h with h2 | h2
              · rcases List.mem_cons.mp h2 with h3 | h3
                · simp [h3]
                · simp [h3]
              · rcases List.mem_cons.mp h2 with h3 | h3
                · simp [h3]
                · rcases ih false [] c h3 with h4 | h4 | h4
                  · simp [h4]
                  · simp at h4
                  · simp [h4]

theorem dash_not_mem_markupMinify (t : List Char) (h : '-' ∉ t) :
    '-' ∉ markupMinify t := by
  intro hm
  rw [markupMinify] at hm
  have h1 := mem_stripWs _ _ hm
  rcases mem_ritGo _ _ _ _ h1 with h2 | h2 | h2
  · rcases mem_collapseWs _ _ h2 with h3 | h3
    · exact h (mem_removeDelimGo _ _ _ _ _ h3)
    · simp at h3
  · simp at h2
  · simp at h2

theorem dash_not_mem_preRestoreText (s : List Char) (h : '-' ∉ s) :
    '-' ∉ preRestoreText s := by
  rw [preRestoreText]
  exact dash_not_mem_markupMinify _
    (dash_not_mem_extractScriptsGo _ _ _ (dash_not_mem_extractStylesGo _ _ _ h))
end Minimize
namespace Minimize
/-- Claim C8, amended: deletions and whitespace removal can join characters
into new comment delimiters (cex_C8), so comment elimination only holds
when no delimiter can be assembled at all: no transformation stage ever
introduces a character other than the space, hence for inputs without '/'
the minify_css and minify_js outputs contain no '/*'-then-'*/' pair, and
for inputs without '-' the markup-level text of minify_html before
placeholder restoration contains no '<!--'-then-'-->' pair. -/
theorem thm_C8 :
    (∀ s : List Char, '/' ∉ s →
      hasOpenClose ['/', '*'] ['*', '/'] (minify_css s) = false ∧
      hasOpenClose ['/', '*'] ['*', '/'] (minify_js s) = false) ∧
    (∀ s : List Char, '-' ∉ s →
      hasOpenClose "<!--".data "-->".data (preRestoreText s) = false) := by
  constructor
  · intro s h
    constructor
    · cases hoc : hasOpenClose ['/', '*'] ['*', '/'] (minify_css s) with
      | false => rfl
      | true =>
          have hm := hasOpenClose_op_mem _ _ _ hoc '/' (by decide)
          rcases mem_minify_css _ _ hm with h2 | h2
          · exact absurd h2 h
          · exact absurd h2 (by decide)
    · cases hoc : hasOpenClose ['/', '*'] ['*', '/'] (minify_js s) with
      | false => rfl
      | true =>
          have hm := hasOpenClose_op_mem _ _ _ hoc '/' (by decide)
          rcases mem_minify_js _ _ hm with h2 | h2
          · exact absurd h2 h
          · exact absurd h2 (by decide)
  · intro s h
    cases hoc : hasOpenClose "<!--".data "-->".data (preRestoreText s) with
    | false => rfl
    | true =>
        have hm := hasOpenClose_op_mem _ _ _ hoc '-' (by decide)
        exact absurd hm (dash_not_mem_preRestoreText s h)

/-- Witness for thm_C8 at concrete slash-free and dash-free inputs. -/
theorem wit_C8 :
    ('/' ∉ "a b".data) ∧
    hasOpenClose ['/', '*'] ['*', '/'] (minify_css "a b".data) = false ∧
    hasOpenClose ['/', '*'] ['*', '/'] (minify_js "a b".data) = false ∧
    ('-' ∉ "<p> x <b>".data) ∧
    hasOpenClose "<!--".data "-->".data (preRestoreText "<p> x <b>".data) = false :=
  ⟨by decide, (thm_C8.1 "a b".data (by decide)).1, (thm_C8.1 "a b".data (by decide)).2,
   by decide, thm_C8.2 "<p> x <b>".data (by decide)⟩
end Minimize
namespace Minimize
theorem extractStylesGo_nil (f : Nat) (acc : List (List Char)) :
    extractStylesGo f [] acc = ([], acc) := by cases f <;> rfl

theorem extractScriptsGo_nil (f : Nat) (acc : List (List Char)) :
    extractScriptsGo f [] acc = ([], acc) := by cases f <;> rfl

theorem ciStarts_of_map (p t r : List Char) (h : t.map Char.toLower = p) :
    ciStarts p (t ++ r) = true := by
  induction p generalizing t with
  | nil => rfl
  | cons p1 ps ih =>
      cases t with
      | nil => simp at h
      | cons c t' =>
          simp only [List.map_cons, List.cons.injEq] at h
          rw [List.cons_append, ciStarts]
          simp only [Bool.and_eq_true, beq_iff_eq]
          exact ⟨h.1, ih t' h.2⟩

theorem splitAtGt_append (attrs r : List Char) (h : '>' ∉ attrs) :
    splitAtGt (attrs ++ '>' :: r) = some (attrs, r) := by
  induction attrs with
  | nil => rfl
  | cons c t ih =>
      have hc : c = '>' → False := fun he => h (he ▸ List.mem_cons_self c t)
      rw [List.cons_append, splitAtGt.eq_3 c _ hc]
      rw [ih (fun hx => h (List.mem_cons_of_mem _ hx))]

theorem noCiSub_extractStylesGo (f : Nat) :
    ∀ s acc, hasCiSub "<style".data s = false → extractStylesGo f s acc = (s, acc) := by
  induction f with
  | zero => intro s acc _; rfl
  | succ f ih =>
      intro s acc h
      cases s with
      | nil => rfl
      | cons c rest =>
          rw [hasCiSub] at h
          rcases Bool.or_eq_false_iff.mp h with ⟨h1, h2⟩
          rw [extractStylesGo, if_neg (by simp [h1])]
          rw [ih rest acc h2]
end Minimize
namespace Minimize
theorem extractStylesGo_match (f : Nat) (acc : List (List Char)) (o : Char)
    (srest attrs inner content post : List Char)
    (hci : ciStarts "<style".data (o :: srest) = true)
    (hsplit : splitAtGt (List.drop 6 (o :: srest)) = some (attrs, inner))
    (hfind : findCiSplit "</style>".data inner = some (content, post)) :
    extractStylesGo (f + 1) (o :: srest) acc =
      (styleMarker acc.length ++ (extractStylesGo f post (acc ++ [style_block content])).1,
       (extractStylesGo f post (acc ++ [style_block content])).2) := by
  rw [extractStylesGo, if_pos hci, hsplit]
  show (match findCiSplit "</style>".data inner with
        | some (content, post) =>
            (styleMarker acc.length ++
              (extractStylesGo f post (acc ++ [style_block content])).1,
             (extractStylesGo f post (acc ++ [style_block content])).2)
        | none =>
            (o :: (extractStylesGo f srest acc).1,
             (extractStylesGo f srest acc).2)) = _
  rw [hfind]

theorem extractScriptsGo_match (f : Nat) (acc : List (List Char)) (o : Char)
    (srest attrs inner content post : List Char)
    (hci : ciStarts "<script".data (o :: srest) = true)
    (hsplit : splitAtGt (List.drop 7 (o :: srest)) = some (attrs, inner))
    (hfind : findCiSplit "</script>".data inner = some (content, post)) :
    extractScriptsGo (f + 1) (o :: srest) acc =
      (scriptMarker acc.length ++ (extractScriptsGo f post (acc ++ [script_block attrs content])).1,
       (extractScriptsGo f post (acc ++ [script_block attrs content])).2) := by
  rw [extractScriptsGo, if_pos hci, hsplit]
  show (match findCiSplit "</script>".data inner with
        | some (content, post) =>
            (scriptMarker acc.length ++
              (extractScriptsGo f post (acc ++ [script_block attrs content])).1,
             (extractScriptsGo f post (acc ++ [script_block attrs content])).2)
        | none =>
            (o :: (extractScriptsGo f srest acc).1,
             (extractScriptsGo f srest acc).2)) = _
  rw [hfind]
end Minimize
namespace Minimize
theorem extractStyles_single (openT attrs content closeT : List Char)
    (hopen : openT.map Char.toLower = "<style".data)
    (hattr : '>' ∉ attrs)
    (hfind : findCiSplit "</style>".data (content ++ closeT) = some (content, [])) :
    extractStyles (openT ++ (attrs ++ '>' :: (content ++ closeT))) =
      (styleMarker 0, [style_block content]) := by
  have hlen : openT.length = 6 := by
    have h2 := congrArg List.length hopen
    simpa using h2
  cases openT with
  | nil => simp at hlen
  | cons o t =>
      have hci : ciStarts "<style".data
          ((o :: t) ++ (attrs ++ '>' :: (content ++ closeT))) = true :=
        ciStarts_of_map _ _ _ hopen
      have hsplit : splitAtGt (List.drop 6
          ((o :: t) ++ (attrs ++ '>' :: (content ++ closeT)))) =
          some (attrs, content ++ closeT) := by
        rw [show (6 : Nat) = (o :: t).length from hlen.symm, List.drop_left]
        exact splitAtGt_append _ _ hattr
      have hS : (o :: t) ++ (attrs ++ '>' :: (content ++ closeT)) =
          o :: (t ++ (attrs ++ '>' :: (content ++ closeT))) := List.cons_append _ _ _
      rw [extractStyles, hS] at *
      rw [hS]
      rw [List.length_cons]
      have hm := extractStylesGo_match
        ((t ++ (attrs ++ '>' :: (content ++ closeT))).length) [] o
        (t ++ (attrs ++ '>' :: (content ++ closeT))) attrs (content ++ closeT)
        content [] hci hsplit hfind
      rw [extractStylesGo_nil] at hm
      simpa using hm

theorem extractScripts_single (openT attrs content closeT : List Char)
    (hopen : openT.map Char.toLower = "<script".data)
    (hattr : '>' ∉ attrs)
    (hfind : findCiSplit "</script>".data (content ++ closeT) = some (content, [])) :
    extractScripts (openT ++ (attrs ++ '>' :: (content ++ closeT))) =
      (scriptMarker 0, [script_block attrs content]) := by
  have hlen : openT.length = 7 := by
    have h2 := congrArg List.length hopen
    simpa using h2
  cases openT with
  | nil => simp at hlen
  | cons o t =>
      have hci : ciStarts "<script".data
          ((o :: t) ++ (attrs ++ '>' :: (content ++ closeT))) = true :=
        ciStarts_of_map _ _ _ hopen
      have hsplit : splitAtGt (List.drop 7
          ((o :: t) ++ (attrs ++ '>' :: (content ++ closeT)))) =
          some (attrs, content ++ closeT) := by
        rw [show (7 : Nat) = (o :: t).length from hlen.symm, List.drop_left]
        exact splitAtGt_append _ _ hattr
      have hS : (o :: t) ++ (attrs ++ '>' :: (content ++ closeT)) =
          o :: (t ++ (attrs ++ '>' :: (content ++ closeT))) := List.cons_append _ _ _
      rw [extractScripts, hS] at *
      rw [hS]
      rw [List.length_cons]
      have hm := extractScriptsGo_match
        ((t ++ (attrs ++ '>' :: (content ++ closeT))).length) [] o
        (t ++ (attrs ++ '>' :: (content ++ closeT))) attrs (content ++ closeT)
        content [] hci hsplit hfind
      rw [extractScriptsGo_nil] at hm
      simpa using hm
end Minimize
namespace Minimize
theorem minify_html_single_style (openT attrs content closeT : List Char)
    (hopen : openT.map Char.toLower = "<style".data)
    (hattr : '>' ∉ attrs)
    (hfind : findCiSplit "</style>".data (content ++ closeT) = some (content, [])) :
    minify_html (openT ++ (attrs ++ '>' :: (content ++ closeT))) = style_block content := by
  have hst := extractStyles_single openT attrs content closeT hopen hattr hfind
  have hsc : extractScripts (styleMarker 0) = (styleMarker 0, []) := by decide
  have hmk : markupMinify (styleMarker 0) = styleMarker 0 := by decide
  rw [minify_html, preRestoreText, hst]
  simp only []
  rw [hsc]
  simp only []
  rw [hmk]
  show restoreGo styleMarker 0 [style_block content] (styleMarker 0) = style_block content
  have hr := restore_single styleMarker [] [] (style_block content) (by decide) (by decide)
  simpa using hr

theorem minify_html_single_script (openT attrs content closeT : List Char)
    (hopen : openT.map Char.toLower = "<script".data)
    (hattr : '>' ∉ attrs)
    (hfind : findCiSplit "</script>".data (content ++ closeT) = some (content, []))
    (hnostyle : hasCiSub "<style".data (openT ++ (attrs ++ '>' :: (content ++ closeT))) = false) :
    minify_html (openT ++ (attrs ++ '>' :: (content ++ closeT))) = script_block attrs content := by
  have hst : extractStyles (openT ++ (attrs ++ '>' :: (content ++ closeT))) =
      (openT ++ (attrs ++ '>' :: (content ++ closeT)), []) := by
    rw [extractStyles]
    exact noCiSub_extractStylesGo _ _ _ hnostyle
  have hsc := extractScripts_single openT attrs content closeT hopen hattr hfind
  have hmk : markupMinify (scriptMarker 0) = scriptMarker 0 := by decide
  rw [minify_html, preRestoreText, hst]
  simp only []
  rw [hsc]
  simp only []
  rw [hmk]
  show restoreGo scriptMarker 0 [script_block attrs content] (scriptMarker 0) =
    script_block attrs content
  have hr := restore_single scriptMarker [] [] (script_block attrs content) (by decide) (by decide)
  simpa using hr
end Minimize
namespace Minimize
/-- Claim C7: for a document consisting of one well-formed block (attribute
text without '>', inner content whose first case-insensitive closing tag is
the final one), the style path reconstructs the block with a bare style
opening tag - the attribute text does not appear in the output - while the
script path reproduces the original attribute text verbatim. -/
theorem thm_C7 :
    (∀ attrs content, '>' ∉ attrs →
      findCiSplit "</style>".data (content ++ "</style>".data) = some (content, []) →
      minify_html ("<style".data ++ (attrs ++ '>' :: (content ++ "</style>".data))) =
        "<style>".data ++ minify_css content ++ "</style>".data) ∧
    (∀ attrs content, '>' ∉ attrs →
      findCiSplit "</script>".data (content ++ "</script>".data) = some (content, []) →
      hasCiSub "<style".data
        ("<script".data ++ (attrs ++ '>' :: (content ++ "</script>".data))) = false →
      minify_html ("<script".data ++ (attrs ++ '>' :: (content ++ "</script>".data))) =
        "<script".data ++ attrs ++ '>' ::
          ((if stripWs content = [] then content else minify_js content) ++
            "</script>".data)) :=
  ⟨fun attrs content hattr hfind =>
      minify_html_single_style _ attrs content _ (by decide) hattr hfind,
   fun attrs content hattr hfind hnostyle =>
      minify_html_single_script _ attrs content _ (by decide) hattr hfind hnostyle⟩

/-- Witness for thm_C7: a style block with a type attribute (dropped) and
a script block with a defer attribute (kept). -/
theorem wit_C7 :
    ('>' ∉ " type=\"text/css\"".data) ∧
    findCiSplit "</style>".data ("b \x7b margin : 0 \x7d".data ++ "</style>".data) =
      some ("b \x7b margin : 0 \x7d".data, []) ∧
    minify_html ("<style".data ++ (" type=\"text/css\"".data ++ '>' ::
        ("b \x7b margin : 0 \x7d".data ++ "</style>".data))) =
      "<style>".data ++ minify_css "b \x7b margin : 0 \x7d".data ++ "</style>".data ∧
    minify_html ("<script".data ++ (" defer".data ++ '>' ::
        ("x = 1".data ++ "</script>".data))) =
      "<script".data ++ " defer".data ++ '>' ::
        ((if stripWs "x = 1".data = [] then "x = 1".data
          else minify_js "x = 1".data) ++ "</script>".data) :=
  ⟨by decide, by decide,
   thm_C7.1 " type=\"text/css\"".data "b \x7b margin : 0 \x7d".data
     (by decide) (by decide),
   thm_C7.2 " defer".data "x = 1".data (by decide) (by decide) (by decide)⟩

/-- Claim C10: tag matching is case-insensitive (any opening tag whose
lowercase form is the style or script tag, and any case variant of the
closing tag) but the reconstructed block always uses the lowercase literal
tag names, while script attribute text keeps its original spelling. -/
theorem thm_C10 :
    (∀ openT attrs content closeT,
      openT.map Char.toLower = "<style".data → '>' ∉ attrs →
      findCiSplit "</style>".data (content ++ closeT) = some (content, []) →
      minify_html (openT ++ (attrs ++ '>' :: (content ++ closeT))) =
        "<style>".data ++ minify_css content ++ "</style>".data) ∧
    (∀ openT attrs content closeT,
      openT.map Char.toLower = "<script".data → '>' ∉ attrs →
      findCiSplit "</script>".data (content ++ closeT) = some (content, []) →
      hasCiSub "<style".data (openT ++ (attrs ++ '>' :: (content ++ closeT))) = false →
      minify_html (openT ++ (attrs ++ '>' :: (content ++ closeT))) =
        "<script".data ++ attrs ++ '>' ::
          ((if stripWs content = [] then content else minify_js content) ++
            "</script>".data)) :=
  ⟨fun openT attrs content closeT hopen hattr hfind =>
      minify_html_single_style openT attrs content closeT hopen hattr hfind,
   fun openT attrs content closeT hopen hattr hfind hnostyle =>
      minify_html_single_script openT attrs content closeT hopen hattr hfind hnostyle⟩

/-- Witness for thm_C10 on fully uppercase STYLE and SCRIPT tags. -/
theorem wit_C10 :
    ("<STYLE".data.map Char.toLower = "<style".data) ∧
    minify_html ("<STYLE".data ++ ([] ++ '>' ::
        ("A \x7b \x7d".data ++ "</STYLE>".data))) =
      "<style>".data ++ minify_css "A \x7b \x7d".data ++ "</style>".data ∧
    minify_html ("<SCRIPT".data ++ (" x".data ++ '>' ::
        ("let a = 1".data ++ "</SCRIPT>".data))) =
      "<script".data ++ " x".data ++ '>' ::
        ((if stripWs "let a = 1".data = [] then "let a = 1".data
          else minify_js "let a = 1".data) ++ "</script>".data) :=
  ⟨by decide,
   thm_C10.1 "<STYLE".data [] "A \x7b \x7d".data "</STYLE>".data
     (by decide) (by decide) (by decide),
   thm_C10.2 "<SCRIPT".data " x".data "let a = 1".data "</SCRIPT>".data
     (by decide) (by decide) (by decide) (by decide)⟩
end Minimize
namespace Minimize
theorem isWs_ite (c : Char) : isWs (if isWs c then ' ' else c) = isWs c := by
  split <;> simp_all [isWs]

theorem collapseWs_head (c : Char) (rest : List Char) :
    ∃ u, collapseWs (c :: rest) = (if isWs c then ' ' else c) :: u := by
  induction rest generalizing c with
  | nil =>
      rw [collapseWs]
      split <;> exact ⟨[], rfl⟩
  | cons c2 rest2 ih =>
      rw [collapseWs]
      split
      · rename_i hb
        obtain ⟨u, hu⟩ := ih c2
        rw [hu]
        rcases (Bool.and_eq_true _ _).mp hb with ⟨h1, h2⟩
        rw [if_pos h1, if_pos h2]
        exact ⟨u, rfl⟩
      · exact ⟨collapseWs (c2 :: rest2), rfl⟩

theorem hasAdjWs_tail (c : Char) (l : List Char)
    (h : hasAdjWs (c :: l) = false) : hasAdjWs l = false := by
  cases l with
  | nil => rfl
  | cons b l2 =>
      rw [hasAdjWs] at h
      exact (Bool.or_eq_false_iff.mp h).2

theorem hasAdjWs_cons (a b : Char) (l : List Char)
    (hab : (isWs a && isWs b) = false) (h : hasAdjWs (b :: l) = false) :
    hasAdjWs (a :: b :: l) = false := by
  rw [hasAdjWs, hab, h]
  rfl

theorem collapseWs_noAdj (s : List Char) : hasAdjWs (collapseWs s) = false := by
  induction s using collapseWs.induct with
  | case1 => rfl
  | case2 c hws => rw [collapseWs, if_pos hws]; rfl
  | case3 c hws => rw [collapseWs, if_neg hws]; rfl
  | case4 c1 c2 rest hc ih => rw [collapseWs, if_pos hc]; exact ih
  | case5 c1 c2 rest hc ih =>
      rw [collapseWs, if_neg hc]
      obtain ⟨u, hu⟩ := collapseWs_head c2 rest
      rw [hu] at ih ⊢
      refine hasAdjWs_cons _ _ _ ?_ ih
      rw [isWs_ite, isWs_ite]
      cases hb : (isWs c1 && isWs c2) with
      | false => rfl
      | true => exact absurd hb hc
end Minimize
namespace Minimize
theorem hasGtWsLt_tail (c : Char) (l : List Char)
    (h : hasGtWsLt (c :: l) = false) : hasGtWsLt l = false := by
  cases l with
  | nil => rfl
  | cons b l2 =>
      cases l2 with
      | nil => rfl
      | cons d l3 =>
          rw [hasGtWsLt] at h
          exact (Bool.or_eq_false_iff.mp h).2

theorem hasGtWsLt_cons_ne (a : Char) (l : List Char)
    (ha : (a == '>') = false) (h : hasGtWsLt l = false) :
    hasGtWsLt (a :: l) = false := by
  cases l with
  | nil => rfl
  | cons b l2 =>
      cases l2 with
      | nil => rfl
      | cons d l3 =>
          rw [hasGtWsLt, ha, h]
          rfl

theorem hasGtWsLt_cons_gt (b : Char) (l : List Char)
    (hb : isWs b = false) (h : hasGtWsLt (b :: l) = false) :
    hasGtWsLt ('>' :: b :: l) = false := by
  cases l with
  | nil => rfl
  | cons d l3 =>
      rw [hasGtWsLt, hb, h]
      rfl

theorem hasGtWsLt_cons_gt_ws (w d : Char) (l : List Char)
    (hd : (d == '<') = false) (h : hasGtWsLt (w :: d :: l) = false) :
    hasGtWsLt ('>' :: w :: d :: l) = false := by
  rw [hasGtWsLt, hd, h]
  simp

theorem ritGt_starts (s : List Char) :
    ∀ pend, ∃ u, ritGo true pend s = '>' :: u := by
  induction s with
  | nil => intro pend; exact ⟨pend, rfl⟩
  | cons c rest ih =>
      intro pend
      rw [ritGo]
      split
      · exact ih (pend ++ [c])
      · split
        · exact ⟨'<' :: ritGo false [] rest, rfl⟩
        · split
          · obtain ⟨u, hu⟩ := ih []
            exact ⟨pend ++ ritGo true [] rest, rfl⟩
          · exact ⟨pend ++ (c :: ritGo false [] rest), rfl⟩

theorem ritNorm_head (c : Char) (rest : List Char) :
    ∃ u, ritGo false [] (c :: rest) = c :: u := by
  rw [ritGo]
  split
  · rename_i hc
    obtain ⟨u, hu⟩ := ritGt_starts rest []
    rw [hu]
    have : c = '>' := by simpa using hc
    rw [this]
    exact ⟨u, rfl⟩
  · exact ⟨ritGo false [] rest, rfl⟩
end Minimize
namespace Minimize
theorem hasAdjWs_pair (a b : Char) (l : List Char)
    (h : hasAdjWs (a :: b :: l) = false) : (isWs a && isWs b) = false := by
  rw [hasAdjWs] at h
  exact (Bool.or_eq_false_iff.mp h).1

theorem ws_ne_gt (w : Char) (hw : isWs w = true) : (w == '>') = false := by
  cases hb : (w == '>') with
  | false => rfl
  | true =>
      have : w = '>' := by simpa using hb
      rw [this] at hw
      exact absurd hw (by decide)

theorem rit_norm_cons (c : Char) (rest : List Char)
    (hc : (c == '>') = false)
    (hadjc : hasAdjWs (c :: rest) = false)
    (hP : hasAdjWs (ritGo false [] rest) = false ∧
          hasGtWsLt (ritGo false [] rest) = false) :
    hasAdjWs (c :: ritGo false [] rest) = false ∧
    hasGtWsLt (c :: ritGo false [] rest) = false := by
  cases rest with
  | nil => exact ⟨rfl, rfl⟩
  | cons d r2 =>
      obtain ⟨u, hu⟩ := ritNorm_head d r2
      rw [hu] at hP ⊢
      exact ⟨hasAdjWs_cons c d u (hasAdjWs_pair c d r2 hadjc) hP.1,
             hasGtWsLt_cons_ne c (d :: u) hc hP.2⟩

theorem rit_ok (s : List Char) :
    (hasAdjWs s = false →
      hasAdjWs (ritGo false [] s) = false ∧ hasGtWsLt (ritGo false [] s) = false) ∧
    (hasAdjWs s = false →
      hasAdjWs (ritGo true [] s) = false ∧ hasGtWsLt (ritGo true [] s) = false) ∧
    (∀ w, isWs w = true → hasAdjWs s = false →
      (∀ d rest2, s = d :: rest2 → isWs d = false) →
      hasAdjWs (ritGo true [w] s) = false ∧ hasGtWsLt (ritGo true [w] s) = false) := by
  induction s with
  | nil =>
      refine ⟨fun _ => ⟨rfl, rfl⟩, fun _ => ⟨rfl, rfl⟩, fun w hw _ _ => ⟨?_, rfl⟩⟩
      show hasAdjWs ['>', w] = false
      rw [hasAdjWs]
      have h1 : hasAdjWs [w] = false := rfl
      simp [isWs, h1]
  | cons c rest ih =>
      obtain ⟨ih1, ih2, ih3⟩ := ih
      refine ⟨fun hadj => ?_, fun hadj => ?_, fun w hw hadj hhead => ?_⟩
      · rw [ritGo]
        split
        · exact ih2 (hasAdjWs_tail _ _ hadj)
        · rename_i hc
          rw [Bool.not_eq_true] at hc
          exact rit_norm_cons c rest hc hadj (ih1 (hasAdjWs_tail _ _ hadj))
      · rw [ritGo]
        split
        · rename_i hwc
          refine ih3 c hwc (hasAdjWs_tail _ _ hadj) ?_
          intro d r2 hr
          subst hr
          have hp := hasAdjWs_pair c d r2 hadj
          rw [hwc] at hp
          simpa using hp
        · split
          · rename_i hlt
            simp at hlt
          · split
            · rename_i hgt
              have hcgt : c = '>' := by simpa using hgt
              have hP := ih2 (hasAdjWs_tail _ _ hadj)
              obtain ⟨u, hu⟩ := ritGt_starts rest []
              rw [hu] at hP
              show hasAdjWs ('>' :: ritGo true [] rest) = false ∧
                   hasGtWsLt ('>' :: ritGo true [] rest) = false
              rw [hu]
              exact ⟨hasAdjWs_cons '>' '>' u (by decide) hP.1,
                     hasGtWsLt_cons_gt '>' u (by decide) hP.2⟩
            · rename_i hws hlt hgt
              rw [Bool.not_eq_true] at hws hgt
              have hP := rit_norm_cons c rest hgt hadj (ih1 (hasAdjWs_tail _ _ hadj))
              show hasAdjWs ('>' :: c :: ritGo false [] rest) = false ∧
                   hasGtWsLt ('>' :: c :: ritGo false [] rest) = false
              refine ⟨hasAdjWs_cons '>' c _ (by simp [isWs]) hP.1,
                      hasGtWsLt_cons_gt c _ hws hP.2⟩
      · rw [ritGo]
        split
        · rename_i hwc
          exact absurd hwc (by simp [hhead c rest rfl])
        · split
          · rename_i hws hlt
            have hclt : c = '<' := by
              have := ((Bool.and_eq_true _ _).mp hlt).1
              simpa using this
            subst hclt
            have hP := rit_norm_cons '<' rest (by decide) hadj
              (ih1 (hasAdjWs_tail _ _ hadj))
            exact ⟨hasAdjWs_cons '>' '<' _ (by decide) hP.1,
                   hasGtWsLt_cons_gt '<' _ (by decide) hP.2⟩
          · split
            · rename_i hws hlt hgt
              have hcgt : c = '>' := by simpa using hgt
              have hP := ih2 (hasAdjWs_tail _ _ hadj)
              obtain ⟨u, hu⟩ := ritGt_starts rest []
              rw [hu] at hP
              show hasAdjWs (('>' :: [w]) ++ ritGo true [] rest) = false ∧
                   hasGtWsLt (('>' :: [w]) ++ ritGo true [] rest) = false
              rw [hu]
              have hwadj : hasAdjWs (w :: '>' :: u) = false :=
                hasAdjWs_cons w '>' u (by simp [isWs]) hP.1
              have hwgt : hasGtWsLt (w :: '>' :: u) = false :=
                hasGtWsLt_cons_ne w ('>' :: u) (ws_ne_gt w hw) hP.2
              exact ⟨hasAdjWs_cons '>' w ('>' :: u) (by simp [isWs]) hwadj,
                     hasGtWsLt_cons_gt_ws w '>' u (by decide) hwgt⟩
            · rename_i hws hlt hgt
              rw [Bool.not_eq_true] at hws hgt
              have hclt : (c == '<') = false := by
                cases hb : (c == '<') with
                | false => rfl
                | true => exact absurd (by simp [hb]) hlt
              have hP := rit_norm_cons c rest hgt hadj (ih1 (hasAdjWs_tail _ _ hadj))
              show hasAdjWs (('>' :: [w]) ++ (c :: ritGo false [] rest)) = false ∧
                   hasGtWsLt (('>' :: [w]) ++ (c :: ritGo false [] rest)) = false
              have hwadj : hasAdjWs (w :: c :: ritGo false [] rest) = false :=
                hasAdjWs_cons w c _ (by simp [hws]) hP.1
              have hwgt : hasGtWsLt (w :: c :: ritGo false [] rest) = false :=
                hasGtWsLt_cons_ne w _ (ws_ne_gt w hw) hP.2
              exact ⟨hasAdjWs_cons '>' w _ (by simp [isWs]) hwadj,
                     hasGtWsLt_cons_gt_ws w c _ hclt hwgt⟩
end Minimize
namespace Minimize
theorem hasGtWsLt_triple (a b c : Char) (l : List Char)
    (h : hasGtWsLt (a :: b :: c :: l) = false) :
    (a == '>' && isWs b && c == '<') = false := by
  rw [hasGtWsLt] at h
  exact (Bool.or_eq_false_iff.mp h).1

theorem hasAdjWs_append_right (a b : List Char)
    (h : hasAdjWs (a ++ b) = false) : hasAdjWs b = false := by
  induction a with
  | nil => exact h
  | cons c t ih => exact ih (hasAdjWs_tail _ _ h)

theorem hasGtWsLt_append_right (a b : List Char)
    (h : hasGtWsLt (a ++ b) = false) : hasGtWsLt b = false := by
  induction a with
  | nil => exact h
  | cons c t ih => exact ih (hasGtWsLt_tail _ _ h)

theorem hasAdjWs_append_left (a b : List Char)
    (h : hasAdjWs (a ++ b) = false) : hasAdjWs a = false := by
  induction a with
  | nil => rfl
  | cons c t ih =>
      cases t with
      | nil => rfl
      | cons d t2 =>
          have h2 := ih (hasAdjWs_tail _ _ h)
          exact hasAdjWs_cons c d t2 (hasAdjWs_pair c d _ h) h2

theorem hasGtWsLt_append_left (a b : List Char)
    (h : hasGtWsLt (a ++ b) = false) : hasGtWsLt a = false := by
  induction a with
  | nil => rfl
  | cons c t ih =>
      cases t with
      | nil => rfl
      | cons d t2 =>
          cases t2 with
          | nil => rfl
          | cons e t3 =>
              have h2 := ih (hasGtWsLt_tail _ _ h)
              rw [hasGtWsLt, hasGtWsLt_triple c d e _ h, h2]
              rfl

theorem dropTrailingWs_eq_app (s : List Char) :
    ∃ u, s = dropTrailingWs s ++ u := by
  induction s with
  | nil => exact ⟨[], rfl⟩
  | cons c rest ih =>
      obtain ⟨u, hu⟩ := ih
      rw [dropTrailingWs]
      cases hd : dropTrailingWs rest with
      | nil =>
          rw [hd] at hu
          simp only [List.nil_append] at hu
          by_cases hws : isWs c = true
          · rw [if_pos hws]
            exact ⟨c :: rest, rfl⟩
          · rw [if_neg hws]
            exact ⟨u, by simp [hu]⟩
      | cons d r2 =>
          rw [hd] at hu
          exact ⟨u, by rw [hu]; rfl⟩

theorem stripWs_noAdj (s : List Char) (h : hasAdjWs s = false) :
    hasAdjWs (stripWs s) = false := by
  rw [stripWs]
  have h1 : hasAdjWs (s.dropWhile isWs) = false := by
    have hsplit := (List.takeWhile_append_dropWhile (p := isWs) (l := s)).symm
    exact hasAdjWs_append_right _ _ (hsplit ▸ h)
  obtain ⟨u, hu⟩ := dropTrailingWs_eq_app (s.dropWhile isWs)
  exact hasAdjWs_append_left _ _ (hu ▸ h1)

theorem stripWs_noGtWsLt (s : List Char) (h : hasGtWsLt s = false) :
    hasGtWsLt (stripWs s) = false := by
  rw [stripWs]
  have h1 : hasGtWsLt (s.dropWhile isWs) = false := by
    have hsplit := (List.takeWhile_append_dropWhile (p := isWs) (l := s)).symm
    exact hasGtWsLt_append_right _ _ (hsplit ▸ h)
  obtain ⟨u, hu⟩ := dropTrailingWs_eq_app (s.dropWhile isWs)
  exact hasGtWsLt_append_left _ _ (hu ▸ h1)

theorem hasDoubleSpace_of_noAdj (s : List Char) (h : hasAdjWs s = false) :
    hasDoubleSpace s = false := by
  induction s with
  | nil => rfl
  | cons c rest ih =>
      cases rest with
      | nil => rfl
      | cons d r2 =>
          have hp := hasAdjWs_pair c d r2 h
          have h2 := ih (hasAdjWs_tail _ _ h)
          rw [hasDoubleSpace, h2]
          have hcd : (c == ' ' && d == ' ') = false := by
            cases hc : (c == ' ') with
            | false => rfl
            | true =>
                cases hdd : (d == ' ') with
                | false => simp
                | true =>
                    have hc2 : c = ' ' := by simpa using hc
                    have hd2 : d = ' ' := by simpa using hdd
                    rw [hc2, hd2] at hp
                    exact absurd hp (by decide)
          rw [hcd]
          rfl
end Minimize
namespace Minimize
/-- Claim C2, amended: the markup-level passes of minify_html (comment
removal, whitespace collapse, inter-tag whitespace removal, strip - the
stages run on the placeholder text before restoration) always produce a
text with no two consecutive spaces and no whitespace directly between '>'
and '<'; the full output can violate both only through restored embedded
blocks, as cex_C2 shows. -/
theorem thm_C2 (t : List Char) :
    hasDoubleSpace (markupMinify t) = false ∧
    hasGtWsLt (markupMinify t) = false := by
  rw [markupMinify]
  have h1 : hasAdjWs (collapseWs (removeHtmlComments t)) = false :=
    collapseWs_noAdj _
  have h2 := (rit_ok (collapseWs (removeHtmlComments t))).1 h1
  exact ⟨hasDoubleSpace_of_noAdj _ (stripWs_noAdj _ h2.1),
         stripWs_noGtWsLt _ h2.2⟩
end Minimize
